import Mathlib

/-!
Verification of the key-value store built on a B-tree in
`31.1 - Implementing a Key-Value Database/Basics.ipynb`.

The `KV` class of the notebook (final version, cell 23) wraps a `BTree`
engine imported from `btree.py`, which is not among the sources; the engine
operations (`search`, `insert`, `less_than`, `greater_than`) and the
`pickle`-based serialization are therefore modelled from the specification
(spec.md §3, §4.1, §6), while the `KV` methods themselves (`__init__`,
`get`, `set`, `range_query`, `dump`, `load`, `load_from_dict`) are
translated from the notebook code.
-/

namespace KVStore



/-- Python runtime values as they occur in the notebook: the `None` sentinel,
integers and strings. -/
inductive PyVal where
  | none
  | int (n : Int)
  | str (s : String)
deriving DecidableEq

/-- Python key objects: the notebook stores use `int` or `str` keys. -/
inductive PyKey where
  | int (n : Int)
  | str (s : String)
deriving DecidableEq

/-- The declared key type of a store (the `type_` argument of `KV.__init__`). -/
inductive PyType where
  | int
  | str
deriving DecidableEq

/-- The `isinstance(key, self.type)` check of `KV.set`. -/
def PyKey.isInst : PyKey → PyType → Bool
  | .int _, .int => true
  | .str _, .str => true
  | _, _ => false

/-- Total order on key objects: the usual orders on `int` and on `str`;
keys of distinct runtime types are ordered with all ints below all strs
(cross-type comparisons never arise inside a store, whose keys all have the
declared type). -/
def PyKey.lt : PyKey → PyKey → Prop
  | .int a, .int b => a < b
  | .str a, .str b => a < b
  | .int _, .str _ => True
  | .str _, .int _ => False

instance : DecidableRel PyKey.lt := fun a b =>
  match a, b with
  | .int a, .int b => inferInstanceAs (Decidable (a < b))
  | .str a, .str b => inferInstanceAs (Decidable (a < b))
  | .int _, .str _ => .isTrue trivial
  | .str _, .int _ => .isFalse fun h => h

/-- A stored entry: one `NodeKey(key, value)` of the notebook. -/
abbrev Entry := PyKey × PyVal

/-- Strict ascending key order on an entry list; the in-order flattening of a
well-formed tree satisfies it (spec.md §3: entries within and across a
subtree are strictly ordered by key, no duplicate keys). -/
def entSorted (l : List Entry) : Prop :=
  l.Pairwise (fun a b => a.1.lt b.1)

instance (l : List Entry) : Decidable (entSorted l) :=
  inferInstanceAs (Decidable (l.Pairwise _))

/-- Modelled from the spec: a `TreeNode` of the Tree Engine (§3) — an ordered
sequence of key-value entries plus a sequence of child references; a node is
a leaf iff `children` is empty. -/
inductive Node where
  | node (keys : List Entry) (children : List Node)

mutual

/-- In-order flattening of a tree: the stored entries in tree order
(child 0, key 0, child 1, key 1, …, last child). -/
def Node.flatten : Node → List Entry
  | .node keys children => flattenAux keys children

/-- Flattening of the interleaved `keys`/`children` sequences of one node. -/
def flattenAux : List Entry → List Node → List Entry
  | keys, [] => keys
  | [], c :: _ => c.flatten
  | e :: keys, c :: cs => c.flatten ++ e :: flattenAux keys cs

end

/-- Linear scan of a leaf's entry list for a key, returning the stored value
or the Python `None` object when absent. -/
def scanKeys (k : PyKey) : List Entry → PyVal
  | [] => .none
  | e :: keys => if k = e.1 then e.2 else scanKeys k keys

mutual

/-- Modelled from the spec: engine `search(node, key)` (§4.1) — scan the
node's keys for the key; if found return its value; if the node is a leaf
and the key is not found report absence (Python returns `None`); otherwise
recurse into the appropriate child interval. -/
def Node.search (k : PyKey) : Node → PyVal
  | .node keys children => searchAux k keys children

/-- Search walk over the interleaved `keys`/`children` of one node. -/
def searchAux (k : PyKey) : List Entry → List Node → PyVal
  | keys, [] => scanKeys k keys
  | [], c :: _ => c.search k
  | e :: keys, c :: cs =>
    if k.lt e.1 then c.search k
    else if k = e.1 then e.2
    else searchAux k keys cs

end

/-- Specification-side lookup: the first stored entry with the given key. -/
def findE (l : List Entry) (k : PyKey) : Option Entry :=
  l.find? (fun e => decide (k = e.1))

/-- The Python value returned for an optional entry: the entry's value, or
the `None` object when there is no entry. -/
def valOf : Option Entry → PyVal
  | Option.none => .none
  | some e => e.2

/-- Placement of an entry at its sorted position in an entry list (what the
engine's leaf insertion does to the in-order flattening). -/
def insEntry (e : Entry) : List Entry → List Entry
  | [] => [e]
  | x :: xs => if e.1.lt x.1 then e :: x :: xs else x :: insEntry e xs

/-- A node is full when it holds `2t - 1` entries (spec.md §4.1). -/
def Node.full (t : Nat) : Node → Bool
  | .node keys _ => keys.length == 2 * t - 1

/-- Default entry used only to totalize list indexing in `splitM`. -/
def defEntry : Entry := (PyKey.int 0, PyVal.none)

/-- Modelled from the spec: left half of a full node's split — the first
`t - 1` entries and the first `t` children (§4.1 split policy). -/
def splitL (t : Nat) : Node → Node
  | .node keys children => .node (keys.take (t - 1)) (children.take t)

/-- Modelled from the spec: the median entry promoted to the parent. -/
def splitM (t : Nat) : Node → Entry
  | .node keys _ => keys.getD (t - 1) defEntry

/-- Modelled from the spec: right half of a full node's split — the last
`t - 1` entries and the last `t` children. -/
def splitR (t : Nat) : Node → Node
  | .node keys children => .node (keys.drop t) (children.drop t)

def sizeOf_take_le {α : Type} [SizeOf α] (l : List α) (n : Nat) :
    sizeOf (l.take n) ≤ sizeOf l := by
  induction l generalizing n with
  | nil => simp [List.take]
  | cons a tl ih =>
    cases n with
    | zero => simp [List.take]; omega
    | succ m =>
      simp only [List.take, List.cons.sizeOf_spec]
      have := ih m
      omega

def sizeOf_drop_le {α : Type} [SizeOf α] (l : List α) (n : Nat) :
    sizeOf (l.drop n) ≤ sizeOf l := by
  induction l generalizing n with
  | nil => simp [List.drop]
  | cons a tl ih =>
    cases n with
    | zero => simp [List.drop]
    | succ m =>
      simp only [List.drop, List.cons.sizeOf_spec]
      have := ih m
      omega

def sizeOf_splitL_le (t : Nat) (c : Node) : sizeOf (splitL t c) ≤ sizeOf c := by
  cases c with
  | node keys children =>
    simp only [splitL, Node.node.sizeOf_spec]
    have h1 := sizeOf_take_le keys (t - 1)
    have h2 := sizeOf_take_le children t
    omega

def sizeOf_splitR_le (t : Nat) (c : Node) : sizeOf (splitR t c) ≤ sizeOf c := by
  cases c with
  | node keys children =>
    simp only [splitR, Node.node.sizeOf_spec]
    have h1 := sizeOf_drop_le keys t
    have h2 := sizeOf_drop_le children t
    omega

mutual

/-- Modelled from the spec: engine insertion into a non-full node (§4.1) —
descend top-down; at each internal node, if the target child is full, split
it first, promoting its median into the current node, then descend into the
correct half; place the entry at its sorted position once a leaf is
reached. -/
def Node.insNF (t : Nat) (e : Entry) : Node → Node
  | .node keys children =>
    .node (insA t e keys children).1 (insA t e keys children).2
termination_by n => sizeOf n
decreasing_by
  all_goals simp_arith

/-- Insertion walk over the interleaved `keys`/`children` of one node,
returning the updated sequences. -/
def insA (t : Nat) (e : Entry) : List Entry → List Node → List Entry × List Node
  | keys, [] => (insEntry e keys, [])
  | [], c :: cs =>
    if Node.full t c then
      (if e.1.lt (splitM t c).1 then
        ([splitM t c], Node.insNF t e (splitL t c) :: splitR t c :: cs)
      else
        ([splitM t c], splitL t c :: Node.insNF t e (splitR t c) :: cs))
    else ([], Node.insNF t e c :: cs)
  | k :: keys, c :: cs =>
    if e.1.lt k.1 then
      (if Node.full t c then
        (if e.1.lt (splitM t c).1 then
          (splitM t c :: k :: keys, Node.insNF t e (splitL t c) :: splitR t c :: cs)
        else
          (splitM t c :: k :: keys, splitL t c :: Node.insNF t e (splitR t c) :: cs))
      else (k :: keys, Node.insNF t e c :: cs))
    else
      (k :: (insA t e keys cs).1, c :: (insA t e keys cs).2)
termination_by keys children => sizeOf keys + sizeOf children
decreasing_by
  all_goals simp_arith
  · have := sizeOf_splitL_le t c; omega
  · have := sizeOf_splitR_le t c; omega
  · have := sizeOf_splitL_le t c; omega
  · have := sizeOf_splitR_le t c; omega

end

/-- Modelled from the spec: engine `insert(key, value)` (§4.1) — if the root
is full, split it first, making a new root with the single median entry and
the two halves as children, then insert top-down into a guaranteed non-full
path. -/
def Node.insert (t : Nat) (e : Entry) (n : Node) : Node :=
  if Node.full t n then
    Node.insNF t e (.node [splitM t n] [splitL t n, splitR t n])
  else
    Node.insNF t e n

/-- Non-strict key order. -/
def keyLE (a b : PyKey) : Prop := a.lt b ∨ a = b

instance (a b : PyKey) : Decidable (keyLE a b) :=
  inferInstanceAs (Decidable (_ ∨ _))

/-- Bound test of the engine's `less_than`: key under the bound, non-strictly
when `inclusive` is set. -/
def ltPredB (incl : Bool) (b k : PyKey) : Bool :=
  if incl then decide (keyLE k b) else decide (k.lt b)

/-- Lower-bound test of the engine's `greater_than`: key above the bound,
non-strictly when `inclusive` is set. -/
def gtPredB (incl : Bool) (a k : PyKey) : Bool :=
  if incl then decide (keyLE a k) else decide (a.lt k)

/-- Optional upper-bound test of the engine's `greater_than`: trivially true
when no upper bound was supplied. -/
def ubPredB (incl : Bool) (ub : Option PyKey) (k : PyKey) : Bool :=
  match ub with
  | Option.none => true
  | some b => ltPredB incl b k

mutual

/-- Modelled from the spec: engine `less_than(node, bound, inclusive)`
(§4.1) — produce all entries with key below the bound in ascending order,
visiting subtrees left-to-right and pruning every subtree that lies entirely
above the bound (everything to the right of a failing separator). -/
def Node.lessThan (b : PyKey) (incl : Bool) : Node → List Entry
  | .node keys children => ltAux b incl keys children

/-- Walk of `less_than` over the interleaved `keys`/`children` of a node. -/
def ltAux (b : PyKey) (incl : Bool) : List Entry → List Node → List Entry
  | keys, [] => keys.filter (fun e => ltPredB incl b e.1)
  | [], c :: _ => c.lessThan b incl
  | e :: keys, c :: cs =>
    if ltPredB incl b e.1 then
      c.lessThan b incl ++ e :: ltAux b incl keys cs
    else
      c.lessThan b incl

end

mutual

/-- Modelled from the spec: engine
`greater_than(node, lower, upper_bound, inclusive)` (§4.1) — produce all
entries with key above `lower`, additionally bounded above by `upper_bound`
when supplied (same inclusive flag on both sides), in ascending order,
pruning subtrees wholly outside the requested interval. -/
def Node.greaterThan (a : PyKey) (ub : Option PyKey) (incl : Bool) : Node → List Entry
  | .node keys children => gtAux a ub incl keys children

/-- Walk of `greater_than` over the interleaved `keys`/`children` of a node. -/
def gtAux (a : PyKey) (ub : Option PyKey) (incl : Bool) :
    List Entry → List Node → List Entry
  | keys, [] => keys.filter (fun e => gtPredB incl a e.1 && ubPredB incl ub e.1)
  | [], c :: _ => c.greaterThan a ub incl
  | k :: keys, c :: cs =>
    if gtPredB incl a k.1 then
      (if ubPredB incl ub k.1 then
        c.greaterThan a ub incl ++ k :: gtAux a ub incl keys cs
      else
        c.greaterThan a ub incl)
    else
      gtAux a ub incl keys cs

end

/-- The distinct error outcomes raised by the notebook's `KV` methods; each
constructor corresponds to one distinct raise site / message (spec.md §7
error kinds, plus the raw Python failures that are not `KV` raises). -/
inductive PyErr where
  | keyNotFound
  | invalidValue
  | keyTypeMismatch
  | duplicateKey
  | invalidInterval
  | unpackError
  | typeError
  | ioError
  | fileNotFound
  | corruptData
deriving DecidableEq

/-- Modelled from the spec: a `BTree` starts out empty (spec.md §3
lifecycle: created empty), so the fresh root is an empty leaf. -/
def emptyRoot : Node := .node [] []

/-- The typed store: `self.type`, the degree `self.t` fixed by
`super().__init__(10)`, and `self.root` owned by the engine. -/
structure KV where
  type : PyType
  t : Nat
  root : Node

/-- Translated from `KV.__init__(self, type_, values=None)`: stores the key
type and calls `super().__init__(10)`; the `values` parameter is accepted
but never read by the notebook code, so the new store is always empty. -/
def KV.init (type_ : PyType) (values : Option (List (PyKey × PyVal))) : KV :=
  { type := type_, t := 10, root := emptyRoot }

/-- Translated from `KV.get`: searches from the root and raises
`KeyError` when the engine returned `None`. -/
def KV.get (kv : KV) (key : PyKey) : Except PyErr PyVal :=
  if kv.root.search key = PyVal.none then .error .keyNotFound
  else .ok (kv.root.search key)

/-- Translated from `KV.set`: raise `ValueError` on a `None` value, then
`KeyError` on a key not an instance of the declared type, then search for
the key and raise `ValueError` if it already exists; otherwise insert the
new `NodeKey`. -/
def KV.set (kv : KV) (key : PyKey) (value : PyVal) : Except PyErr KV :=
  if value = PyVal.none then .error .invalidValue
  else if key.isInst kv.type = false then .error .keyTypeMismatch
  else if kv.root.search key ≠ PyVal.none then .error .duplicateKey
  else .ok { kv with root := kv.root.insert kv.t (key, value) }

/-- State-transformer view of `KV.set`: a Python `raise` aborts the call
before the single mutation point (`self.insert`), so on error the store is
the unchanged receiver. -/
def KV.setS (kv : KV) (key : PyKey) (value : PyVal) : Except PyErr Unit × KV :=
  match KV.set kv key value with
  | .error e => (.error e, kv)
  | .ok kv2 => (.ok (), kv2)

/-- Kinds of Python sequence-like objects a caller may pass as the
`range_query` interval. -/
inductive SeqKind where
  | list
  | tuple
  | iterable
deriving DecidableEq

/-- The `range_query` argument: a list, tuple, or other sized iterable with
its items (each an optional key, since bounds may be `None`), or an object
with no `len()` at all. -/
inductive PyArg where
  | seq (kind : SeqKind) (items : List (Option PyKey))
  | nonSeq
deriving DecidableEq

/-- The `isinstance(interval, (list, tuple))` test. -/
def PyArg.isListOrTuple : PyArg → Bool
  | .seq .list _ => true
  | .seq .tuple _ => true
  | _ => false

/-- Dispatch of the `upper` bound to the engine's `less_than`. A
`range_query([None, None])` call passes a `None` bound through to the
engine; spec.md §9 leaves that behavior an open question. Modelled from the
spec: the `None`-bound case is modelled as returning no entries; no claim
depends on this branch. -/
def lessThanOpt (n : Node) (upper : Option PyKey) (incl : Bool) : List Entry :=
  match upper with
  | some b => Node.lessThan b incl n
  | Option.none => []

/-- Translated from `KV.range_query(self, interval, inclusive=False)`:
the guard is the notebook's
`if not isinstance(interval, (list, tuple)) and len(interval) != 2:`
(with Python's short-circuit `and`, so `len` is evaluated — and may raise
`TypeError` — only when the isinstance test failed), then
`lower, upper = interval` unpacks (raising `ValueError` unless exactly two
items), then `less_than` when `lower` is `None`, else `greater_than`. -/
def KV.rangeQuery (kv : KV) (interval : PyArg) (inclusive : Bool) :
    Except PyErr (List Entry) :=
  match interval with
  | .nonSeq => .error .typeError
  | .seq kind items =>
    if PyArg.isListOrTuple (.seq kind items) = false ∧ items.length ≠ 2 then
      .error .invalidInterval
    else
      match items with
      | [lower, upper] =>
        match lower with
        | Option.none => .ok (lessThanOpt kv.root upper inclusive)
        | some a => .ok (Node.greaterThan a upper inclusive kv.root)
      | _ => .error .unpackError

/-- Modelled from the spec: the structured object image `pickle` writes —
spec.md §9 describes the original format as whole-object opaque
serialization, so the file content is modelled as a structured image of the
store. -/
inductive PData where
  | pint (n : Int)
  | pstr (s : String)
  | pnone
  | ptype (ty : PyType)
  | plist (items : List PData)

/-- Serialization of one Python value. -/
def encodeVal : PyVal → PData
  | .none => .pnone
  | .int n => .pint n
  | .str s => .pstr s

/-- Deserialization of one Python value; anything else is corrupt. -/
def decodeVal : PData → Option PyVal
  | .pnone => some .none
  | .pint n => some (.int n)
  | .pstr s => some (.str s)
  | _ => Option.none

/-- Serialization of one key. -/
def encodeKey : PyKey → PData
  | .int n => .pint n
  | .str s => .pstr s

/-- Deserialization of one key; anything else is corrupt. -/
def decodeKey : PData → Option PyKey
  | .pint n => some (.int n)
  | .pstr s => some (.str s)
  | _ => Option.none

/-- Serialization of one stored entry (`NodeKey`). -/
def encodeEntry (e : Entry) : PData := .plist [encodeKey e.1, encodeVal e.2]

/-- Deserialization of one stored entry. -/
def decodeEntry : PData → Option Entry
  | .plist [k, v] =>
    match decodeKey k, decodeVal v with
    | some k2, some v2 => some (k2, v2)
    | _, _ => Option.none
  | _ => Option.none

/-- Deserialization of an entry list. -/
def decodeEntries : List PData → Option (List Entry)
  | [] => some []
  | d :: ds =>
    match decodeEntry d, decodeEntries ds with
    | some e, some es => some (e :: es)
    | _, _ => Option.none

mutual

/-- Serialization of a tree node: its entry list and its children. -/
def encodeNode : Node → PData
  | .node keys children =>
    .plist [.plist (keys.map encodeEntry), .plist (encodeNodes children)]

/-- Serialization of a child list. -/
def encodeNodes : List Node → List PData
  | [] => []
  | c :: cs => encodeNode c :: encodeNodes cs

end

mutual

/-- Deserialization of a tree node; any structural mismatch is corrupt. -/
def decodeNode : PData → Option Node
  | .plist [.plist ks, .plist cs] =>
    match decodeEntries ks, decodeNodes cs with
    | some keys, some children => some (.node keys children)
    | _, _ => Option.none
  | _ => Option.none

/-- Deserialization of a child list. -/
def decodeNodes : List PData → Option (List Node)
  | [] => some []
  | d :: ds =>
    match decodeNode d, decodeNodes ds with
    | some c, some cs => some (c :: cs)
    | _, _ => Option.none

end

/-- Serialization of the entire store (key type tag, degree, full tree). -/
def KV.encode (kv : KV) : PData :=
  .plist [.ptype kv.type, .pint (Int.ofNat kv.t), encodeNode kv.root]

/-- Deserialization of a persisted store; any structural mismatch is
corrupt. -/
def KV.decode : PData → Option KV
  | .plist [.ptype ty, .pint n, d] =>
    if n < 0 then Option.none
    else
      match decodeNode d with
      | some root => some { type := ty, t := n.toNat, root := root }
      | Option.none => Option.none
  | _ => Option.none

/-- Modelled from the spec: the file system seen by `dump`/`load`, one
optional file content per name. -/
def FS : Type := String → Option PData

/-- Writing a file replaces any prior content at that name (spec.md
glossary: snapshot persistence). -/
def FS.write (fs : FS) (name : String) (d : PData) : FS :=
  fun n => if n = name then some d else fs n

/-- A file system with no files. -/
def emptyFS : FS := fun _ => Option.none

/-- Modelled from the spec: the outcome of the whole-file write performed
inside the `with open(...)` block of `dump` (§5: `persist` performs
whole-file I/O; §7: I/O failures must propagate). -/
inductive IOOutcome where
  | ok
  | fail
deriving DecidableEq

/-- Translated from `KV.dump(self, filename)`: appends `.db`, opens the
file and pickles `self`, then returns `True` from inside the `with` block.
An I/O failure inside the block propagates as the raised error; the
trailing `return False` of the notebook is unreachable because the `with`
suite always returns `True` or raises. -/
def KV.dump (kv : KV) (filename : String) (fs : FS) (io : IOOutcome) :
    Except PyErr (FS × Bool) :=
  match io with
  | .ok => .ok (fs.write (filename ++ ".db") (KV.encode kv), true)
  | .fail => .error .ioError

/-- Translated from the static `KV.load(filename)`: appends `.db`, opens
the file and unpickles a store from it; a missing file raises, and a
structurally invalid image fails as corrupt data (spec.md §4.2). -/
def KV.load (filename : String) (fs : FS) : Except PyErr KV :=
  match fs (filename ++ ".db") with
  | Option.none => .error .fileNotFound
  | some d =>
    match KV.decode d with
    | some kv => .ok kv
    | Option.none => .error .corruptData

/-- Translated from `KV.load_from_dict(self, dictionary)`: iterate the
mapping's items in order and call `set` for each; a raise from `set`
propagates immediately, leaving the store as mutated so far. -/
def KV.loadFromDict (kv : KV) (dict : List (PyKey × PyVal)) :
    Option PyErr × KV :=
  match dict with
  | [] => (Option.none, kv)
  | (k, v) :: rest =>
    match KV.set kv k v with
    | .error e => (some e, kv)
    | .ok kv2 => KV.loadFromDict kv2 rest

/-- A sequence of `set` calls, stopping at the first failure. -/
def KV.setAll (kv : KV) (entries : List Entry) : Except PyErr KV :=
  entries.foldlM (fun s e => KV.set s e.1 e.2) kv

/-- The store invariant maintained by the public interface: the flattening
is strictly sorted by key, no stored value is the `None` sentinel, and the
degree is the fixed 10 of `KV.__init__`. -/
def KV.Inv (kv : KV) : Prop :=
  entSorted kv.root.flatten ∧ (∀ x ∈ kv.root.flatten, x.2 ≠ PyVal.none) ∧ kv.t = 10

instance (kv : KV) : Decidable (KV.Inv kv) :=
  inferInstanceAs (Decidable (_ ∧ _ ∧ _))

/-- Stores populated only through the public interface: construction,
`set` (successful or failed), and `load_from_dict`. -/
inductive KV.Reach : KV → Prop where
  | init : ∀ ty vals, KV.Reach (KV.init ty vals)
  | setStep : ∀ kv k v, KV.Reach kv → KV.Reach (KV.setS kv k v).2
  | bulkStep : ∀ kv d, KV.Reach kv → KV.Reach (KV.loadFromDict kv d).2

/-- A small concrete integer-keyed store used as evaluation input. -/
def wKV : KV :=
  { type := .int, t := 10,
    root := .node [(.int 1, .str "u"), (.int 2, .str "v"), (.int 3, .str "w")] [] }

theorem PyKey.lt_irrefl (a : PyKey) : ¬ a.lt a := by
  cases a <;> simp [PyKey.lt]

theorem PyKey.lt_trans {a b c : PyKey} (h1 : a.lt b) (h2 : b.lt c) : a.lt c := by
  cases a <;> cases b <;> cases c <;>
    simp only [PyKey.lt] at h1 h2 ⊢ <;>
    first
      | trivial
      | exact h1.elim
      | exact h2.elim
      | exact h1.trans h2

theorem PyKey.lt_total {a b : PyKey} (h : a ≠ b) : a.lt b ∨ b.lt a := by
  cases a with
  | int a =>
    cases b with
    | int b =>
      have hne : a ≠ b := fun he => h (by rw [he])
      exact lt_or_gt_of_ne hne
    | str b => exact Or.inl trivial
  | str a =>
    cases b with
    | int b => exact Or.inr trivial
    | str b =>
      have hne : a ≠ b := fun he => h (by rw [he])
      exact lt_or_gt_of_ne hne

theorem PyKey.ne_of_lt {a b : PyKey} (h : a.lt b) : a ≠ b := by
  intro he
  subst he
  exact PyKey.lt_irrefl a h

theorem PyKey.lt_asymm {a b : PyKey} (h : a.lt b) : ¬ b.lt a := by
  intro h2
  exact PyKey.lt_irrefl a (PyKey.lt_trans h h2)

theorem findE_nil (k : PyKey) : findE [] k = Option.none := rfl

theorem findE_cons (e : Entry) (l : List Entry) (k : PyKey) :
    findE (e :: l) k = if k = e.1 then some e else findE l k := by
  simp only [findE, List.find?_cons]
  by_cases h : k = e.1 <;> simp [h]

theorem findE_append (l1 l2 : List Entry) (k : PyKey) :
    findE (l1 ++ l2) k = (findE l1 k).or (findE l2 k) := by
  simp [findE, List.find?_append]

theorem findE_eq_none {l : List Entry} {k : PyKey} (h : ∀ e ∈ l, k ≠ e.1) :
    findE l k = Option.none := by
  simp only [findE, List.find?_eq_none, decide_eq_true_eq]
  exact h

theorem scanKeys_eq_findE (k : PyKey) (l : List Entry) :
    scanKeys k l = valOf (findE l k) := by
  induction l with
  | nil => rfl
  | cons e l ih =>
    rw [findE_cons]
    by_cases h : k = e.1 <;> simp [scanKeys, h, valOf, ih]

theorem sizeOf_node_pos (n : Node) : 1 ≤ sizeOf n := by
  cases n with
  | node keys children => simp_arith

/-- Entries left of a separator come from child subtrees below it; entries
right of it are above it (consequences of sortedness used repeatedly). -/
theorem entSorted_append {l1 l2 : List Entry} (h : entSorted (l1 ++ l2)) :
    entSorted l1 ∧ entSorted l2 ∧ ∀ a ∈ l1, ∀ b ∈ l2, a.1.lt b.1 := by
  simpa [entSorted, List.pairwise_append] using h

theorem searchAux_eq_findE_aux (k : PyKey) (children : List Node)
    (hc : ∀ c ∈ children, entSorted (Node.flatten c) →
      Node.search k c = valOf (findE (Node.flatten c) k)) :
    ∀ keys : List Entry, entSorted (flattenAux keys children) →
      searchAux k keys children = valOf (findE (flattenAux keys children) k) := by
  induction children with
  | nil =>
    intro keys _
    simpa [searchAux, flattenAux] using scanKeys_eq_findE k keys
  | cons c cs ih =>
    intro keys hs
    cases keys with
    | nil =>
      simp only [searchAux, flattenAux] at hs ⊢
      exact hc c (by simp) hs
    | cons e ks =>
      simp only [searchAux, flattenAux] at hs ⊢
      obtain ⟨hA, hB, hcross⟩ := entSorted_append hs
      have hB2 := hB
      rw [show (e :: flattenAux ks cs) = [e] ++ flattenAux ks cs by simp] at hB2
      obtain ⟨_, hBtail, hcross2⟩ := entSorted_append hB2
      have he_lt : ∀ b ∈ flattenAux ks cs, e.1.lt b.1 := fun b hb =>
        hcross2 e (by simp) b hb
      rw [findE_append]
      by_cases hlt : k.lt e.1
      · simp only [hlt, if_pos]
        have hcs : Node.search k c = valOf (findE (Node.flatten c) k) :=
          hc c (by simp) hA
        cases hfa : findE (Node.flatten c) k with
        | some a => simp [hcs, hfa, Option.or]
        | none =>
          have hrest : findE (e :: flattenAux ks cs) k = Option.none := by
            apply findE_eq_none
            intro x hx
            rcases List.mem_cons.mp hx with hx | hx
            · subst hx; exact PyKey.ne_of_lt hlt
            · exact PyKey.ne_of_lt (PyKey.lt_trans hlt (he_lt x hx))
          simp [hcs, hfa, hrest, Option.or]
      · by_cases heq : k = e.1
        · rw [if_neg hlt, if_pos heq]
          have hA_none : findE (Node.flatten c) k = Option.none := by
            apply findE_eq_none
            intro x hx
            have hxe := hcross x hx e (by simp)
            intro hk
            have hx1 : x.1 = e.1 := by rw [← hk, heq]
            rw [hx1] at hxe
            exact PyKey.lt_irrefl e.1 hxe
          rw [hA_none, findE_cons, if_pos heq]
          simp [valOf]
        · rw [if_neg hlt, if_neg heq]
          have hgt : e.1.lt k := by
            rcases PyKey.lt_total heq with h | h
            · exact absurd h hlt
            · exact h
          have hA_none : findE (Node.flatten c) k = Option.none := by
            apply findE_eq_none
            intro x hx
            have hxe := hcross x hx e (by simp)
            intro hk
            have hxx : x.1.lt x.1 := by
              have h2 := PyKey.lt_trans hxe hgt
              rw [hk] at h2
              exact h2
            exact PyKey.lt_irrefl x.1 hxx
          rw [hA_none, findE_cons, if_neg heq]
          simp only [Option.none_or]
          exact ih (fun c hc1 => hc c (by simp [hc1])) ks hBtail

theorem search_eq_findE_bound (k : PyKey) :
    ∀ (B : Nat) (n : Node), sizeOf n ≤ B → entSorted n.flatten →
      n.search k = valOf (findE n.flatten k)
  | 0, n, hB, _ => absurd hB (by have := sizeOf_node_pos n; omega)
  | B + 1, .node keys children, hB, hs => by
    have hchild : ∀ c ∈ children, sizeOf c ≤ B := by
      intro c hcmem
      have h1 : sizeOf c < sizeOf children := List.sizeOf_lt_of_mem hcmem
      have h2 : sizeOf (Node.node keys children) = 1 + sizeOf keys + sizeOf children := by
        simp_arith
      omega
    show searchAux k keys children = valOf (findE (flattenAux keys children) k)
    exact searchAux_eq_findE_aux k children
      (fun c hcmem hcs => search_eq_findE_bound k B c (hchild c hcmem) hcs)
      keys hs

/-- Engine search is lookup in the in-order flattening: on a tree whose
flattening is strictly sorted by key, `search` returns the value stored for
the key, or Python `None` when no entry has that key. -/
theorem Node.search_eq_findE {n : Node} (k : PyKey) (hs : entSorted n.flatten) :
    n.search k = valOf (findE n.flatten k) :=
  search_eq_findE_bound k (sizeOf n) n le_rfl hs

theorem mem_insEntry {y e : Entry} {l : List Entry} :
    y ∈ insEntry e l ↔ y = e ∨ y ∈ l := by
  induction l with
  | nil => simp [insEntry]
  | cons x xs ih =>
    by_cases h : e.1.lt x.1
    · simp only [insEntry, if_pos h, List.mem_cons]
    · simp only [insEntry, if_neg h, List.mem_cons, ih]
      tauto

theorem entSorted_cons {x : Entry} {xs : List Entry} :
    entSorted (x :: xs) ↔ (∀ b ∈ xs, x.1.lt b.1) ∧ entSorted xs :=
  List.pairwise_cons

theorem insEntry_append_lt {e k : Entry} (h : e.1.lt k.1) (A B : List Entry) :
    insEntry e (A ++ k :: B) = insEntry e A ++ k :: B := by
  induction A with
  | nil => simp [insEntry, h]
  | cons x xs ih =>
    by_cases hx : e.1.lt x.1
    · simp [insEntry, hx]
    · simp only [List.cons_append, insEntry, if_neg hx, List.append_eq, ih]

theorem insEntry_append_ge {e k : Entry} (hk : ¬ e.1.lt k.1) {A : List Entry}
    (hA : ∀ x ∈ A, ¬ e.1.lt x.1) (B : List Entry) :
    insEntry e (A ++ k :: B) = A ++ k :: insEntry e B := by
  induction A with
  | nil => simp [insEntry, hk]
  | cons x xs ih =>
    have hx : ¬ e.1.lt x.1 := hA x (by simp)
    have ih2 := ih (fun y hy => hA y (by simp [hy]))
    simp only [List.cons_append, insEntry, if_neg hx, List.append_eq, ih2]

theorem entSorted_insEntry {e : Entry} {l : List Entry} (hs : entSorted l)
    (hfresh : ∀ x ∈ l, e.1 ≠ x.1) : entSorted (insEntry e l) := by
  induction l with
  | nil =>
    show entSorted [e]
    exact List.pairwise_singleton _ _
  | cons x xs ih =>
    rw [entSorted_cons] at hs
    obtain ⟨hx_all, hxs⟩ := hs
    by_cases h : e.1.lt x.1
    · rw [insEntry, if_pos h, entSorted_cons]
      refine ⟨?_, entSorted_cons.mpr ⟨hx_all, hxs⟩⟩
      intro b hb
      rcases List.mem_cons.mp hb with hb | hb
      · rw [hb]; exact h
      · exact PyKey.lt_trans h (hx_all b hb)
    · rw [insEntry, if_neg h, entSorted_cons]
      have hne : e.1 ≠ x.1 := hfresh x (by simp)
      have hxe : x.1.lt e.1 := by
        rcases PyKey.lt_total hne with h1 | h1
        · exact absurd h1 h
        · exact h1
      refine ⟨?_, ih hxs (fun y hy => hfresh y (by simp [hy]))⟩
      intro b hb
      rcases mem_insEntry.mp hb with hb | hb
      · rw [hb]; exact hxe
      · exact hx_all b hb

theorem findE_insEntry_self {e : Entry} {l : List Entry}
    (hfresh : ∀ x ∈ l, e.1 ≠ x.1) : findE (insEntry e l) e.1 = some e := by
  induction l with
  | nil => simp [insEntry, findE_cons]
  | cons x xs ih =>
    by_cases h : e.1.lt x.1
    · rw [insEntry, if_pos h, findE_cons]
      simp
    · rw [insEntry, if_neg h, findE_cons, if_neg (hfresh x (by simp))]
      exact ih (fun y hy => hfresh y (by simp [hy]))

theorem findE_insEntry_other {e : Entry} {l : List Entry} {k : PyKey}
    (hk : k ≠ e.1) : findE (insEntry e l) k = findE l k := by
  induction l with
  | nil => simp [insEntry, findE_cons, if_neg hk, findE_nil]
  | cons x xs ih =>
    by_cases h : e.1.lt x.1
    · rw [insEntry, if_pos h, findE_cons, if_neg hk, findE_cons]
    · rw [insEntry, if_neg h, findE_cons, findE_cons]
      by_cases hx : k = x.1
      · rw [if_pos hx, if_pos hx]
      · rw [if_neg hx, if_neg hx, ih]

theorem flattenAux_split :
    ∀ (m : Nat) (keys : List Entry) (children : List Node) (med : Entry)
      (rest : List Entry), keys.drop m = med :: rest →
      flattenAux keys children =
        flattenAux (keys.take m) (children.take (m + 1)) ++
          med :: flattenAux rest (children.drop (m + 1)) := by
  intro m
  induction m with
  | zero =>
    intro keys children med rest h
    simp only [List.drop_zero] at h
    subst h
    cases children with
    | nil => simp [flattenAux]
    | cons c cs => simp [flattenAux]
  | succ m ih =>
    intro keys children med rest h
    cases keys with
    | nil => simp at h
    | cons k ks =>
      simp only [List.drop_succ_cons] at h
      cases children with
      | nil =>
        simp only [flattenAux, List.take_nil, List.drop_nil, List.take_succ_cons]
        have := List.take_append_drop m ks
        rw [h] at this
        conv_lhs => rw [← this]
        simp
      | cons c cs =>
        simp only [flattenAux, List.take_succ_cons, List.drop_succ_cons]
        rw [ih ks cs med rest h]
        simp

theorem full_length {t : Nat} {keys : List Entry} {children : List Node}
    (h : Node.full t (.node keys children) = true) : keys.length = 2 * t - 1 := by
  simpa [Node.full] using h

/-- Splitting a full node preserves the in-order flattening: the left half,
the promoted median, and the right half flatten back to the original node's
entries (spec.md §4.1 split policy). -/
theorem split_flatten {t : Nat} (ht : 1 ≤ t) {c : Node}
    (hfull : Node.full t c = true) :
    (splitL t c).flatten ++ splitM t c :: (splitR t c).flatten = c.flatten := by
  cases c with
  | node keys children =>
    have hlen : keys.length = 2 * t - 1 := full_length hfull
    have hidx : t - 1 < keys.length := by omega
    have h1 : t - 1 + 1 = t := by omega
    have hdrop : keys.drop (t - 1) = keys[t - 1] :: keys.drop (t - 1 + 1) :=
      List.drop_eq_getElem_cons hidx
    rw [h1] at hdrop
    have hmed : splitM t (.node keys children) = keys[t - 1] := by
      simp [splitM, List.getD_eq_getElem?_getD, List.getElem?_eq_getElem hidx]
    have hsp := flattenAux_split (t - 1) keys children (keys[t - 1])
      (keys.drop t) hdrop
    rw [h1] at hsp
    show flattenAux (keys.take (t - 1)) (children.take t) ++
      splitM t (.node keys children) :: flattenAux (keys.drop t) (children.drop t) =
      flattenAux keys children
    rw [hmed, hsp]

theorem gt_of_not_lt_of_ne {a b : PyKey} (h1 : ¬ a.lt b) (h2 : a ≠ b) : b.lt a := by
  rcases PyKey.lt_total h2 with h | h
  · exact absurd h h1
  · exact h

theorem not_lt_of_all_lt {e : PyKey} {m : PyKey} {L : List Entry}
    (hcross : ∀ x ∈ L, x.1.lt m) (hme : m.lt e) : ∀ x ∈ L, ¬ e.lt x.1 :=
  fun x hx => PyKey.lt_asymm (PyKey.lt_trans (hcross x hx) hme)

theorem insA_flatten_aux (t : Nat) (ht : 1 ≤ t) (e : Entry) (B : Nat)
    (hrec : ∀ c : Node, sizeOf c ≤ B → entSorted c.flatten →
      (∀ x ∈ c.flatten, e.1 ≠ x.1) →
      (Node.insNF t e c).flatten = insEntry e c.flatten) :
    ∀ (children : List Node) (keys : List Entry),
      (∀ c ∈ children, sizeOf c ≤ B) →
      entSorted (flattenAux keys children) →
      (∀ x ∈ flattenAux keys children, e.1 ≠ x.1) →
      flattenAux (insA t e keys children).1 (insA t e keys children).2 =
        insEntry e (flattenAux keys children) := by
  intro children
  induction children with
  | nil =>
    intro keys _ _ _
    simp [insA, flattenAux]
  | cons c cs ih =>
    intro keys hsz hs hfresh
    have hcB : sizeOf c ≤ B := hsz c (by simp)
    cases keys with
    | nil =>
      have hflat : flattenAux ([] : List Entry) (c :: cs) = c.flatten := rfl
      rw [hflat] at hs hfresh ⊢
      by_cases hfull : Node.full t c = true
      · have hsplit := split_flatten ht hfull
        have hs2 : entSorted ((splitL t c).flatten ++
            splitM t c :: (splitR t c).flatten) := by rw [hsplit]; exact hs
        have hfresh2 : ∀ x ∈ (splitL t c).flatten ++
            splitM t c :: (splitR t c).flatten, e.1 ≠ x.1 := by
          rw [hsplit]; exact hfresh
        obtain ⟨hsL, hsMR, hcrossL⟩ := entSorted_append hs2
        have hsR : entSorted (splitR t c).flatten := (entSorted_cons.mp hsMR).2
        have hfreshL : ∀ x ∈ (splitL t c).flatten, e.1 ≠ x.1 :=
          fun x hx => hfresh2 x (by simp [hx])
        have hfreshR : ∀ x ∈ (splitR t c).flatten, e.1 ≠ x.1 :=
          fun x hx => hfresh2 x (by simp [hx])
        have hme : e.1 ≠ (splitM t c).1 :=
          hfresh2 (splitM t c) (by simp)
        by_cases hm : e.1.lt (splitM t c).1
        · have h1 : insA t e [] (c :: cs) =
              ([splitM t c], Node.insNF t e (splitL t c) :: splitR t c :: cs) := by
            simp [insA, hfull, hm]
          rw [h1]
          have h2 : flattenAux [splitM t c]
              (Node.insNF t e (splitL t c) :: splitR t c :: cs) =
              (Node.insNF t e (splitL t c)).flatten ++
                splitM t c :: (splitR t c).flatten := rfl
          rw [h2, hrec (splitL t c) (le_trans (sizeOf_splitL_le t c) hcB) hsL hfreshL]
          rw [← hsplit, insEntry_append_lt hm]
        · have h1 : insA t e [] (c :: cs) =
              ([splitM t c], splitL t c :: Node.insNF t e (splitR t c) :: cs) := by
            simp [insA, hfull, hm]
          rw [h1]
          have h2 : flattenAux [splitM t c]
              (splitL t c :: Node.insNF t e (splitR t c) :: cs) =
              (splitL t c).flatten ++
                splitM t c :: (Node.insNF t e (splitR t c)).flatten := rfl
          rw [h2, hrec (splitR t c) (le_trans (sizeOf_splitR_le t c) hcB) hsR hfreshR]
          have hgt : (splitM t c).1.lt e.1 := gt_of_not_lt_of_ne hm hme
          have hLlow : ∀ x ∈ (splitL t c).flatten, ¬ e.1.lt x.1 :=
            not_lt_of_all_lt (fun x hx => hcrossL x hx (splitM t c) (by simp)) hgt
          rw [← hsplit, insEntry_append_ge hm hLlow]
      · have h1 : insA t e [] (c :: cs) = ([], Node.insNF t e c :: cs) := by
          simp [insA, hfull]
        rw [h1]
        have h2 : flattenAux ([] : List Entry) (Node.insNF t e c :: cs) =
            (Node.insNF t e c).flatten := rfl
        rw [h2, hrec c hcB hs hfresh]
    | cons k ks =>
      have hflat : flattenAux (k :: ks) (c :: cs) =
          c.flatten ++ k :: flattenAux ks cs := rfl
      rw [hflat] at hs hfresh ⊢
      obtain ⟨hsC, hsKrest, hcrossC⟩ := entSorted_append hs
      have hsRest : entSorted (flattenAux ks cs) := (entSorted_cons.mp hsKrest).2
      have hkrest : ∀ b ∈ flattenAux ks cs, k.1.lt b.1 := (entSorted_cons.mp hsKrest).1
      have hfreshC : ∀ x ∈ c.flatten, e.1 ≠ x.1 :=
        fun x hx => hfresh x (by simp [hx])
      have hfreshK : e.1 ≠ k.1 := hfresh k (by simp)
      have hfreshRest : ∀ x ∈ flattenAux ks cs, e.1 ≠ x.1 :=
        fun x hx => hfresh x (by simp [hx])
      by_cases hek : e.1.lt k.1
      · by_cases hfull : Node.full t c = true
        · have hsplit := split_flatten ht hfull
          have hs2 : entSorted ((splitL t c).flatten ++
              splitM t c :: (splitR t c).flatten) := by rw [hsplit]; exact hsC
          have hfresh2 : ∀ x ∈ (splitL t c).flatten ++
              splitM t c :: (splitR t c).flatten, e.1 ≠ x.1 := by
            rw [hsplit]; exact hfreshC
          obtain ⟨hsL, hsMR, hcrossL⟩ := entSorted_append hs2
          have hsR : entSorted (splitR t c).flatten := (entSorted_cons.mp hsMR).2
          have hfreshL : ∀ x ∈ (splitL t c).flatten, e.1 ≠ x.1 :=
            fun x hx => hfresh2 x (by simp [hx])
          have hfreshR : ∀ x ∈ (splitR t c).flatten, e.1 ≠ x.1 :=
            fun x hx => hfresh2 x (by simp [hx])
          have hme : e.1 ≠ (splitM t c).1 := hfresh2 (splitM t c) (by simp)
          by_cases hm : e.1.lt (splitM t c).1
          · have h1 : insA t e (k :: ks) (c :: cs) =
                (splitM t c :: k :: ks,
                  Node.insNF t e (splitL t c) :: splitR t c :: cs) := by
              simp [insA, hek, hfull, hm]
            rw [h1]
            have h2 : flattenAux (splitM t c :: k :: ks)
                (Node.insNF t e (splitL t c) :: splitR t c :: cs) =
                (Node.insNF t e (splitL t c)).flatten ++
                  splitM t c :: ((splitR t c).flatten ++ k :: flattenAux ks cs) := rfl
            rw [h2,
              hrec (splitL t c) (le_trans (sizeOf_splitL_le t c) hcB) hsL hfreshL]
            rw [← hsplit, List.append_assoc, List.cons_append,
              insEntry_append_lt hm]
          · have h1 : insA t e (k :: ks) (c :: cs) =
                (splitM t c :: k :: ks,
                  splitL t c :: Node.insNF t e (splitR t c) :: cs) := by
              simp [insA, hek, hfull, hm]
            rw [h1]
            have h2 : flattenAux (splitM t c :: k :: ks)
                (splitL t c :: Node.insNF t e (splitR t c) :: cs) =
                (splitL t c).flatten ++
                  splitM t c :: ((Node.insNF t e (splitR t c)).flatten ++
                    k :: flattenAux ks cs) := rfl
            rw [h2,
              hrec (splitR t c) (le_trans (sizeOf_splitR_le t c) hcB) hsR hfreshR]
            have hgt : (splitM t c).1.lt e.1 := gt_of_not_lt_of_ne hm hme
            have hLlow : ∀ x ∈ (splitL t c).flatten, ¬ e.1.lt x.1 :=
              not_lt_of_all_lt (fun x hx => hcrossL x hx (splitM t c) (by simp)) hgt
            rw [← hsplit, List.append_assoc, List.cons_append,
              insEntry_append_ge hm hLlow, insEntry_append_lt hek]
        · have h1 : insA t e (k :: ks) (c :: cs) =
              (k :: ks, Node.insNF t e c :: cs) := by
            simp [insA, hek, hfull]
          rw [h1]
          have h2 : flattenAux (k :: ks) (Node.insNF t e c :: cs) =
              (Node.insNF t e c).flatten ++ k :: flattenAux ks cs := rfl
          rw [h2, hrec c hcB hsC hfreshC, insEntry_append_lt hek]
      · have h1 : insA t e (k :: ks) (c :: cs) =
            (k :: (insA t e ks cs).1, c :: (insA t e ks cs).2) := by
          simp [insA, hek]
        rw [h1]
        have h2 : flattenAux (k :: (insA t e ks cs).1) (c :: (insA t e ks cs).2) =
            c.flatten ++ k :: flattenAux (insA t e ks cs).1 (insA t e ks cs).2 := rfl
        rw [h2, ih ks (fun x hx => hsz x (by simp [hx])) hsRest hfreshRest]
        have hgt : k.1.lt e.1 := gt_of_not_lt_of_ne hek hfreshK
        have hClow : ∀ x ∈ c.flatten, ¬ e.1.lt x.1 :=
          not_lt_of_all_lt (fun x hx => hcrossC x hx k (by simp)) hgt
        rw [insEntry_append_ge hek hClow]

theorem insNF_flatten_bound (t : Nat) (ht : 1 ≤ t) (e : Entry) :
    ∀ (B : Nat) (n : Node), sizeOf n ≤ B → entSorted n.flatten →
      (∀ x ∈ n.flatten, e.1 ≠ x.1) →
      (Node.insNF t e n).flatten = insEntry e n.flatten
  | 0, n, hB, _, _ => absurd hB (by have := sizeOf_node_pos n; omega)
  | B + 1, .node keys children, hB, hs, hfresh => by
    have hchild : ∀ c ∈ children, sizeOf c ≤ B := by
      intro c hcmem
      have h1 : sizeOf c < sizeOf children := List.sizeOf_lt_of_mem hcmem
      have h2 : sizeOf (Node.node keys children) = 1 + sizeOf keys + sizeOf children := by
        simp_arith
      omega
    have hunfold : Node.insNF t e (.node keys children) =
        .node (insA t e keys children).1 (insA t e keys children).2 := by
      simp [Node.insNF]
    rw [hunfold]
    show flattenAux (insA t e keys children).1 (insA t e keys children).2 =
      insEntry e (flattenAux keys children)
    exact insA_flatten_aux t ht e B
      (fun c hcB hcs hcf => insNF_flatten_bound t ht e B c hcB hcs hcf)
      children keys hchild hs hfresh

/-- Modelled-engine insertion acts on the in-order flattening as sorted
insertion of the new entry: contents and order of all previously stored
entries are preserved and the new entry appears at its key position. -/
theorem Node.insert_flatten {t : Nat} (ht : 1 ≤ t) {e : Entry} {n : Node}
    (hs : entSorted n.flatten) (hfresh : ∀ x ∈ n.flatten, e.1 ≠ x.1) :
    (Node.insert t e n).flatten = insEntry e n.flatten := by
  rw [Node.insert]
  by_cases hfull : Node.full t n = true
  · rw [if_pos hfull]
    have hsplit := split_flatten ht hfull
    have hflat : (Node.node [splitM t n] [splitL t n, splitR t n]).flatten =
        (splitL t n).flatten ++ splitM t n :: (splitR t n).flatten := rfl
    have hs2 : entSorted (Node.node [splitM t n] [splitL t n, splitR t n]).flatten := by
      rw [hflat, hsplit]; exact hs
    have hfresh2 : ∀ x ∈ (Node.node [splitM t n] [splitL t n, splitR t n]).flatten,
        e.1 ≠ x.1 := by
      rw [hflat, hsplit]; exact hfresh
    rw [insNF_flatten_bound t ht e (sizeOf (Node.node [splitM t n] [splitL t n, splitR t n]))
      _ le_rfl hs2 hfresh2, hflat, hsplit]
  · rw [if_neg hfull]
    exact insNF_flatten_bound t ht e (sizeOf n) n le_rfl hs hfresh

theorem ltPredB_false_mono {incl : Bool} {b x y : PyKey}
    (hx : ltPredB incl b x = false) (hxy : x.lt y) : ltPredB incl b y = false := by
  cases incl with
  | false =>
    simp only [ltPredB, if_neg, Bool.false_eq_true, not_false_iff,
      decide_eq_false_iff_not] at hx ⊢
    intro hy
    exact hx (PyKey.lt_trans hxy hy)
  | true =>
    simp only [ltPredB, if_pos, decide_eq_false_iff_not, keyLE, not_or] at hx ⊢
    obtain ⟨hx1, hx2⟩ := hx
    constructor
    · intro hy
      exact hx1 (PyKey.lt_trans hxy hy)
    · intro hy
      rw [hy] at hxy
      exact hx1 hxy

theorem gtPredB_false_mono {incl : Bool} {a x y : PyKey}
    (hy : gtPredB incl a y = false) (hxy : x.lt y) : gtPredB incl a x = false := by
  cases incl with
  | false =>
    simp only [gtPredB, if_neg, Bool.false_eq_true, not_false_iff,
      decide_eq_false_iff_not] at hy ⊢
    intro hx
    exact hy (PyKey.lt_trans hx hxy)
  | true =>
    simp only [gtPredB, if_pos, decide_eq_false_iff_not, keyLE, not_or] at hy ⊢
    obtain ⟨hy1, hy2⟩ := hy
    constructor
    · intro hx
      exact hy1 (PyKey.lt_trans hx hxy)
    · intro hx
      rw [← hx] at hxy
      exact hy1 hxy

theorem ubPredB_false_mono {incl : Bool} {ub : Option PyKey} {x y : PyKey}
    (hx : ubPredB incl ub x = false) (hxy : x.lt y) : ubPredB incl ub y = false := by
  cases ub with
  | none => simp [ubPredB] at hx
  | some b => exact ltPredB_false_mono hx hxy

theorem ltAux_eq_filter_aux (b : PyKey) (incl : Bool) (children : List Node)
    (hc : ∀ c ∈ children, entSorted (Node.flatten c) →
      Node.lessThan b incl c = (Node.flatten c).filter (fun e => ltPredB incl b e.1)) :
    ∀ keys : List Entry, entSorted (flattenAux keys children) →
      ltAux b incl keys children =
        (flattenAux keys children).filter (fun e => ltPredB incl b e.1) := by
  induction children with
  | nil =>
    intro keys _
    cases keys <;> rfl
  | cons c cs ih =>
    intro keys hs
    cases keys with
    | nil =>
      exact hc c (by simp) hs
    | cons e ks =>
      have hflat : flattenAux (e :: ks) (c :: cs) =
          c.flatten ++ e :: flattenAux ks cs := rfl
      rw [hflat] at hs ⊢
      obtain ⟨hsC, hsRest, _⟩ := entSorted_append hs
      have hcC := hc c (by simp) hsC
      have he_all : ∀ x ∈ flattenAux ks cs, e.1.lt x.1 :=
        (entSorted_cons.mp hsRest).1
      show (if ltPredB incl b e.1 then
          Node.lessThan b incl c ++ e :: ltAux b incl ks cs
        else Node.lessThan b incl c) = _
      rw [List.filter_append, List.filter_cons]
      by_cases hp : ltPredB incl b e.1 = true
      · rw [if_pos hp, if_pos hp, hcC,
          ih (fun x hx hxs => hc x (by simp [hx]) hxs) ks (entSorted_cons.mp hsRest).2]
      · have hp2 : ltPredB incl b e.1 = false := by
          cases h : ltPredB incl b e.1
          · rfl
          · exact absurd h hp
        rw [if_neg hp, if_neg hp, hcC]
        have hrest_nil : (flattenAux ks cs).filter (fun x => ltPredB incl b x.1) = [] := by
          rw [List.filter_eq_nil_iff]
          intro x hx
          rw [ltPredB_false_mono hp2 (he_all x hx)]
          simp
        rw [hrest_nil, List.append_nil]

theorem lessThan_eq_filter_bound (b : PyKey) (incl : Bool) :
    ∀ (B : Nat) (n : Node), sizeOf n ≤ B → entSorted n.flatten →
      Node.lessThan b incl n = n.flatten.filter (fun e => ltPredB incl b e.1)
  | 0, n, hB, _ => absurd hB (by have := sizeOf_node_pos n; omega)
  | B + 1, .node keys children, hB, hs => by
    have hchild : ∀ c ∈ children, sizeOf c ≤ B := by
      intro c hcmem
      have h1 : sizeOf c < sizeOf children := List.sizeOf_lt_of_mem hcmem
      have h2 : sizeOf (Node.node keys children) = 1 + sizeOf keys + sizeOf children := by
        simp_arith
      omega
    show ltAux b incl keys children = _
    exact ltAux_eq_filter_aux b incl children
      (fun c hcm hcs => lessThan_eq_filter_bound b incl B c (hchild c hcm) hcs)
      keys hs

/-- Modelled-engine `less_than` returns exactly the stored entries with key
under the bound (non-strictly iff inclusive), in ascending order. -/
theorem Node.lessThan_eq_filter {n : Node} (b : PyKey) (incl : Bool)
    (hs : entSorted n.flatten) :
    Node.lessThan b incl n = n.flatten.filter (fun e => ltPredB incl b e.1) :=
  lessThan_eq_filter_bound b incl (sizeOf n) n le_rfl hs

theorem gtAux_eq_filter_aux (a : PyKey) (ub : Option PyKey) (incl : Bool)
    (children : List Node)
    (hc : ∀ c ∈ children, entSorted (Node.flatten c) →
      Node.greaterThan a ub incl c =
        (Node.flatten c).filter (fun e => gtPredB incl a e.1 && ubPredB incl ub e.1)) :
    ∀ keys : List Entry, entSorted (flattenAux keys children) →
      gtAux a ub incl keys children =
        (flattenAux keys children).filter
          (fun e => gtPredB incl a e.1 && ubPredB incl ub e.1) := by
  induction children with
  | nil =>
    intro keys _
    cases keys <;> rfl
  | cons c cs ih =>
    intro keys hs
    cases keys with
    | nil =>
      exact hc c (by simp) hs
    | cons k ks =>
      have hflat : flattenAux (k :: ks) (c :: cs) =
          c.flatten ++ k :: flattenAux ks cs := rfl
      rw [hflat] at hs ⊢
      obtain ⟨hsC, hsRest, hcross⟩ := entSorted_append hs
      have hcC := hc c (by simp) hsC
      have hk_all : ∀ x ∈ flattenAux ks cs, k.1.lt x.1 :=
        (entSorted_cons.mp hsRest).1
      have ihRest := ih (fun x hx hxs => hc x (by simp [hx]) hxs) ks
        (entSorted_cons.mp hsRest).2
      show (if gtPredB incl a k.1 then
          (if ubPredB incl ub k.1 then
            Node.greaterThan a ub incl c ++ k :: gtAux a ub incl ks cs
          else Node.greaterThan a ub incl c)
        else gtAux a ub incl ks cs) = _
      rw [List.filter_append, List.filter_cons]
      by_cases hg : gtPredB incl a k.1 = true
      · by_cases hu : ubPredB incl ub k.1 = true
        · rw [if_pos hg, if_pos hu, hcC, ihRest]
          have : (gtPredB incl a k.1 && ubPredB incl ub k.1) = true := by
            rw [hg, hu]; rfl
          rw [this, if_pos rfl]
        · have hu2 : ubPredB incl ub k.1 = false := by
            cases h : ubPredB incl ub k.1
            · rfl
            · exact absurd h hu
          rw [if_pos hg, if_neg hu, hcC]
          have hcond : (gtPredB incl a k.1 && ubPredB incl ub k.1) = false := by
            rw [hu2]; simp
          rw [hcond]
          have hrest_nil : (flattenAux ks cs).filter
              (fun x => gtPredB incl a x.1 && ubPredB incl ub x.1) = [] := by
            rw [List.filter_eq_nil_iff]
            intro x hx
            rw [ubPredB_false_mono hu2 (hk_all x hx)]
            simp
          rw [hrest_nil]
          simp
      · have hg2 : gtPredB incl a k.1 = false := by
          cases h : gtPredB incl a k.1
          · rfl
          · exact absurd h hg
        rw [if_neg hg, ihRest]
        have hcond : (gtPredB incl a k.1 && ubPredB incl ub k.1) = false := by
          rw [hg2]; simp
        rw [hcond]
        have hC_nil : (Node.flatten c).filter
            (fun x => gtPredB incl a x.1 && ubPredB incl ub x.1) = [] := by
          rw [List.filter_eq_nil_iff]
          intro x hx
          rw [gtPredB_false_mono hg2 (hcross x hx k (by simp))]
          simp
        rw [hC_nil]
        simp

theorem greaterThan_eq_filter_bound (a : PyKey) (ub : Option PyKey) (incl : Bool) :
    ∀ (B : Nat) (n : Node), sizeOf n ≤ B → entSorted n.flatten →
      Node.greaterThan a ub incl n =
        n.flatten.filter (fun e => gtPredB incl a e.1 && ubPredB incl ub e.1)
  | 0, n, hB, _ => absurd hB (by have := sizeOf_node_pos n; omega)
  | B + 1, .node keys children, hB, hs => by
    have hchild : ∀ c ∈ children, sizeOf c ≤ B := by
      intro c hcmem
      have h1 : sizeOf c < sizeOf children := List.sizeOf_lt_of_mem hcmem
      have h2 : sizeOf (Node.node keys children) = 1 + sizeOf keys + sizeOf children := by
        simp_arith
      omega
    show gtAux a ub incl keys children = _
    exact gtAux_eq_filter_aux a ub incl children
      (fun c hcm hcs => greaterThan_eq_filter_bound a ub incl B c (hchild c hcm) hcs)
      keys hs

/-- Modelled-engine `greater_than` returns exactly the stored entries with
key above the lower bound and, when an upper bound is supplied, under it
(both non-strictly iff inclusive), in ascending order. -/
theorem Node.greaterThan_eq_filter {n : Node} (a : PyKey) (ub : Option PyKey)
    (incl : Bool) (hs : entSorted n.flatten) :
    Node.greaterThan a ub incl n =
      n.flatten.filter (fun e => gtPredB incl a e.1 && ubPredB incl ub e.1) :=
  greaterThan_eq_filter_bound a ub incl (sizeOf n) n le_rfl hs

theorem findE_eq_none_iff {l : List Entry} {k : PyKey} :
    findE l k = Option.none ↔ ∀ e ∈ l, k ≠ e.1 := by
  simp [findE, List.find?_eq_none]

theorem findE_some_mem {l : List Entry} {k : PyKey} {e : Entry}
    (h : findE l k = some e) : e ∈ l :=
  List.mem_of_find?_eq_some h

theorem findE_some_key {l : List Entry} {k : PyKey} {e : Entry}
    (h : findE l k = some e) : k = e.1 := by
  have h2 := List.find?_some h
  simpa using h2

theorem not_mem_keys_iff {l : List Entry} {k : PyKey} :
    k ∉ l.map Prod.fst ↔ ∀ e ∈ l, k ≠ e.1 := by
  constructor
  · intro hnk x hx hke
    exact hnk (List.mem_map.mpr ⟨x, hx, hke.symm⟩)
  · intro hall hk
    obtain ⟨x, hx, hxk⟩ := List.mem_map.mp hk
    exact hall x hx hxk.symm

theorem flatten_emptyRoot : emptyRoot.flatten = [] := rfl

theorem KV.Inv_init (ty : PyType) (vals : Option (List (PyKey × PyVal))) :
    KV.Inv (KV.init ty vals) := by
  refine ⟨List.Pairwise.nil, ?_, rfl⟩
  intro x hx
  simp [KV.init, flatten_emptyRoot] at hx

theorem KV.search_none_iff {kv : KV} (hinv : KV.Inv kv) (k : PyKey) :
    kv.root.search k = PyVal.none ↔ findE kv.root.flatten k = Option.none := by
  obtain ⟨hs, hnn, _⟩ := hinv
  rw [Node.search_eq_findE k hs]
  cases hfe : findE kv.root.flatten k with
  | none => simp [valOf]
  | some e =>
    have hne : e.2 ≠ PyVal.none := hnn e (findE_some_mem hfe)
    simp [valOf, hne]

theorem KV.get_spec {kv : KV} (hinv : KV.Inv kv) (k : PyKey) :
    KV.get kv k = (match findE kv.root.flatten k with
      | some e => .ok e.2
      | Option.none => .error .keyNotFound) := by
  have hs := hinv.1
  cases hfe : findE kv.root.flatten k with
  | none => simp [KV.get, Node.search_eq_findE k hs, hfe, valOf]
  | some e =>
    have hne : e.2 ≠ PyVal.none := hinv.2.1 e (findE_some_mem hfe)
    simp [KV.get, Node.search_eq_findE k hs, hfe, valOf, hne]

theorem KV.set_ok_elim {kv kv2 : KV} {k : PyKey} {v : PyVal}
    (h : KV.set kv k v = .ok kv2) :
    v ≠ PyVal.none ∧ k.isInst kv.type = true ∧ kv.root.search k = PyVal.none ∧
      kv2 = { kv with root := kv.root.insert kv.t (k, v) } := by
  by_cases h1 : v = PyVal.none
  · rw [KV.set, if_pos h1] at h
    exact absurd h (by simp)
  rw [KV.set, if_neg h1] at h
  by_cases h2 : k.isInst kv.type = false
  · rw [if_pos h2] at h
    exact absurd h (by simp)
  rw [if_neg h2] at h
  by_cases h3 : kv.root.search k ≠ PyVal.none
  · rw [if_pos h3] at h
    exact absurd h (by simp)
  rw [if_neg h3] at h
  refine ⟨h1, ?_, not_not.mp h3, ?_⟩
  · cases hi : k.isInst kv.type with
    | false => exact absurd hi h2
    | true => rfl
  · exact ((Except.ok.injEq _ _).mp h).symm

theorem KV.set_ok_inv {kv kv2 : KV} {k : PyKey} {v : PyVal} (hinv : KV.Inv kv)
    (h : KV.set kv k v = .ok kv2) :
    KV.Inv kv2 ∧ kv2.root.flatten = insEntry (k, v) kv.root.flatten ∧
      kv2.type = kv.type ∧ kv2.t = kv.t := by
  obtain ⟨hs, hnn, ht⟩ := hinv
  obtain ⟨hv, hinst, hsearch, hkv2⟩ := KV.set_ok_elim h
  have habs : findE kv.root.flatten k = Option.none :=
    (KV.search_none_iff ⟨hs, hnn, ht⟩ k).mp hsearch
  have hfresh : ∀ x ∈ kv.root.flatten, (k, v).1 ≠ x.1 := findE_eq_none_iff.mp habs
  have ht1 : 1 ≤ kv.t := by omega
  have hflat : kv2.root.flatten = insEntry (k, v) kv.root.flatten := by
    rw [hkv2]
    exact Node.insert_flatten ht1 hs hfresh
  refine ⟨⟨?_, ?_, ?_⟩, hflat, by rw [hkv2], by rw [hkv2]⟩
  · rw [hflat]
    exact entSorted_insEntry hs hfresh
  · rw [hflat]
    intro x hx
    rcases mem_insEntry.mp hx with hx | hx
    · rw [hx]; exact hv
    · exact hnn x hx
  · rw [hkv2]; exact ht

theorem KV.setS_snd_inv {kv : KV} (hinv : KV.Inv kv) (k : PyKey) (v : PyVal) :
    KV.Inv (KV.setS kv k v).2 := by
  rw [KV.setS]
  cases hset : KV.set kv k v with
  | error e => exact hinv
  | ok kv2 => exact (KV.set_ok_inv hinv hset).1

theorem KV.loadFromDict_inv :
    ∀ (d : List (PyKey × PyVal)) (kv : KV), KV.Inv kv →
      KV.Inv (KV.loadFromDict kv d).2 := by
  intro d
  induction d with
  | nil => intro kv hinv; exact hinv
  | cons p rest ih =>
    intro kv hinv
    obtain ⟨k, v⟩ := p
    rw [KV.loadFromDict]
    cases hset : KV.set kv k v with
    | error e => exact hinv
    | ok kv2 => exact ih kv2 (KV.set_ok_inv hinv hset).1

theorem KV.Reach_inv {kv : KV} (h : KV.Reach kv) : KV.Inv kv := by
  induction h with
  | init ty vals => exact KV.Inv_init ty vals
  | setStep kv k v _ ih => exact KV.setS_snd_inv ih k v
  | bulkStep kv d _ ih => exact KV.loadFromDict_inv d kv ih

theorem decodeVal_encodeVal (v : PyVal) : decodeVal (encodeVal v) = some v := by
  cases v <;> rfl

theorem decodeKey_encodeKey (k : PyKey) : decodeKey (encodeKey k) = some k := by
  cases k <;> rfl

theorem decodeEntry_encodeEntry (e : Entry) : decodeEntry (encodeEntry e) = some e := by
  obtain ⟨k, v⟩ := e
  simp [encodeEntry, decodeEntry, decodeKey_encodeKey, decodeVal_encodeVal]

theorem decodeEntries_map (l : List Entry) :
    decodeEntries (l.map encodeEntry) = some l := by
  induction l with
  | nil => rfl
  | cons e es ih => simp [decodeEntries, decodeEntry_encodeEntry, ih]

theorem decodeNodes_aux {cs : List Node}
    (hc : ∀ c ∈ cs, decodeNode (encodeNode c) = some c) :
    decodeNodes (encodeNodes cs) = some cs := by
  induction cs with
  | nil => rfl
  | cons c rest ih =>
    simp [encodeNodes, decodeNodes, hc c (by simp),
      ih (fun x hx => hc x (by simp [hx]))]

theorem decodeNode_encodeNode_bound :
    ∀ (B : Nat) (n : Node), sizeOf n ≤ B → decodeNode (encodeNode n) = some n
  | 0, n, hB => absurd hB (by have := sizeOf_node_pos n; omega)
  | B + 1, .node keys children, hB => by
    have hchild : ∀ c ∈ children, sizeOf c ≤ B := by
      intro c hcmem
      have h1 : sizeOf c < sizeOf children := List.sizeOf_lt_of_mem hcmem
      have h2 : sizeOf (Node.node keys children) = 1 + sizeOf keys + sizeOf children := by
        simp_arith
      omega
    have hcs : decodeNodes (encodeNodes children) = some children :=
      decodeNodes_aux (fun c hcm => decodeNode_encodeNode_bound B c (hchild c hcm))
    simp [encodeNode, decodeNode, decodeEntries_map, hcs]

theorem decodeNode_encodeNode (n : Node) : decodeNode (encodeNode n) = some n :=
  decodeNode_encodeNode_bound (sizeOf n) n le_rfl

/-- The modelled serializer round-trips a whole store exactly (spec.md §6:
`load(persist(name))` reproduces the store). -/
theorem KV.decode_encode (kv : KV) : KV.decode (KV.encode kv) = some kv := by
  simp [KV.encode, KV.decode, decodeNode_encodeNode]

theorem KV.setAll_spec :
    ∀ (entries : List Entry) (kv : KV), KV.Inv kv →
      entries.Pairwise (fun a b => a.1 ≠ b.1) →
      (∀ e ∈ entries, e.1.isInst kv.type = true) →
      (∀ e ∈ entries, e.2 ≠ PyVal.none) →
      (∀ e ∈ entries, findE kv.root.flatten e.1 = Option.none) →
      ∃ kv2, KV.setAll kv entries = .ok kv2 ∧ KV.Inv kv2 ∧
        kv2.type = kv.type ∧
        (∀ e ∈ entries, findE kv2.root.flatten e.1 = some e) ∧
        (∀ k : PyKey, (∀ e ∈ entries, k ≠ e.1) →
          findE kv2.root.flatten k = findE kv.root.flatten k) := by
  intro entries
  induction entries with
  | nil =>
    intro kv hinv _ _ _ _
    exact ⟨kv, rfl, hinv, rfl, by simp, fun k _ => rfl⟩
  | cons e rest ih =>
    intro kv hinv hdist htyped hnn habs
    obtain ⟨k, v⟩ := e
    rw [List.pairwise_cons] at hdist
    obtain ⟨hhead, hrest⟩ := hdist
    have hv : v ≠ PyVal.none := hnn (k, v) (by simp)
    have hinst : PyKey.isInst k kv.type = true := htyped (k, v) (by simp)
    have habs0 : findE kv.root.flatten k = Option.none := habs (k, v) (by simp)
    have hsearch : kv.root.search k = PyVal.none :=
      (KV.search_none_iff hinv k).mpr habs0
    have hset : KV.set kv k v = .ok { kv with root := kv.root.insert kv.t (k, v) } := by
      rw [KV.set, if_neg hv, if_neg (by simp [hinst]), if_neg (by simp [hsearch])]
    obtain ⟨hinv1, hflat1, htype1, _⟩ := KV.set_ok_inv hinv hset
    have hfresh : ∀ x ∈ kv.root.flatten, k ≠ x.1 := findE_eq_none_iff.mp habs0
    have habs1 : ∀ x ∈ rest, findE ({ kv with
        root := kv.root.insert kv.t (k, v) } : KV).root.flatten x.1 = Option.none := by
      intro x hx
      rw [hflat1, findE_insEntry_other (fun he => hhead x hx he.symm)]
      exact habs x (by simp [hx])
    obtain ⟨kv2, hsA, hinv2, htype2, hfind2, hpres2⟩ :=
      ih { kv with root := kv.root.insert kv.t (k, v) } hinv1 hrest
        (by rw [htype1]; exact fun x hx => htyped x (by simp [hx]))
        (fun x hx => hnn x (by simp [hx])) habs1
    refine ⟨kv2, ?_, hinv2, htype2.trans htype1, ?_, ?_⟩
    · show List.foldlM (fun s e => KV.set s e.1 e.2) kv ((k, v) :: rest) = .ok kv2
      rw [List.foldlM_cons]
      show (KV.set kv k v) >>= (fun b => List.foldlM _ b rest) = .ok kv2
      rw [hset]
      exact hsA
    · intro x hx
      rcases List.mem_cons.mp hx with hx | hx
      · rw [hx]
        show findE kv2.root.flatten k = some (k, v)
        rw [hpres2 k (fun y hy => hhead y hy), hflat1]
        exact findE_insEntry_self hfresh
      · exact hfind2 x hx
    · intro key hkey
      rw [hpres2 key (fun y hy => hkey y (by simp [hy])), hflat1,
        findE_insEntry_other (hkey (k, v) (by simp))]

/-- C1: for every sequence of distinct keys of the store's declared key
type, each inserted via `set` with a non-None value into a fresh store, all
inserts succeed and a subsequent `get` on each of those keys returns exactly
the value associated with it at insertion. -/
theorem claim_C1_set_get_roundtrip (ty : PyType) (entries : List Entry)
    (hdist : entries.Pairwise (fun a b => a.1 ≠ b.1))
    (htyped : ∀ e ∈ entries, e.1.isInst ty = true)
    (hnn : ∀ e ∈ entries, e.2 ≠ PyVal.none) :
    ∃ kv2, KV.setAll (KV.init ty Option.none) entries = .ok kv2 ∧
      ∀ e ∈ entries, KV.get kv2 e.1 = .ok e.2 := by
  have habs : ∀ e ∈ entries,
      findE (KV.init ty Option.none).root.flatten e.1 = Option.none := by
    intro e _
    rfl
  obtain ⟨kv2, hall, hinv2, _, hfind, _⟩ :=
    KV.setAll_spec entries (KV.init ty Option.none) (KV.Inv_init ty Option.none)
      hdist (fun e he => htyped e he) hnn habs
  refine ⟨kv2, hall, ?_⟩
  intro e he
  rw [KV.get_spec hinv2, hfind e he]

theorem claim_C1_witness :
    ([((PyKey.int 1 : PyKey), PyVal.str "x"), (.int 2, .str "y"),
        (.int 3, .str "z")].Pairwise (fun a b => a.1 ≠ b.1)) ∧
    (∃ kv2, KV.setAll (KV.init .int Option.none)
        [(.int 1, .str "x"), (.int 2, .str "y"), (.int 3, .str "z")] = .ok kv2 ∧
      ∀ e ∈ [((PyKey.int 1 : PyKey), PyVal.str "x"), (.int 2, .str "y"),
        (.int 3, .str "z")], KV.get kv2 e.1 = .ok e.2) :=
  ⟨by decide,
    claim_C1_set_get_roundtrip .int
      [(.int 1, .str "x"), (.int 2, .str "y"), (.int 3, .str "z")]
      (by decide) (by decide) (by decide)⟩

/-- C2: on any store satisfying the ordering invariant,
`range_query([a, b], inclusive=true)` returns exactly the stored entries
with `a ≤ key ≤ b` and `inclusive=false` exactly those with `a < key < b`;
`range_query([None, b])` returns exactly those with `key < b` (`≤ b` when
inclusive) and `range_query([a, None])` exactly those with `key > a`
(`≥ a` when inclusive); all results are ascending filtrations of the sorted
entry sequence. -/
theorem claim_C2_range_query_exact (kv : KV) (hs : entSorted kv.root.flatten)
    (a b : PyKey) :
    KV.rangeQuery kv (.seq .list [some a, some b]) true =
      .ok (kv.root.flatten.filter
        (fun e => decide (keyLE a e.1) && decide (keyLE e.1 b))) ∧
    KV.rangeQuery kv (.seq .list [some a, some b]) false =
      .ok (kv.root.flatten.filter
        (fun e => decide (a.lt e.1) && decide (e.1.lt b))) ∧
    KV.rangeQuery kv (.seq .list [Option.none, some b]) true =
      .ok (kv.root.flatten.filter (fun e => decide (keyLE e.1 b))) ∧
    KV.rangeQuery kv (.seq .list [Option.none, some b]) false =
      .ok (kv.root.flatten.filter (fun e => decide (e.1.lt b))) ∧
    KV.rangeQuery kv (.seq .list [some a, Option.none]) true =
      .ok (kv.root.flatten.filter (fun e => decide (keyLE a e.1))) ∧
    KV.rangeQuery kv (.seq .list [some a, Option.none]) false =
      .ok (kv.root.flatten.filter (fun e => decide (a.lt e.1))) ∧
    (∀ p : Entry → Bool,
      (kv.root.flatten.filter p).Pairwise (fun x y => x.1.lt y.1)) := by
  have hgt : ∀ (ub : Option PyKey) (incl : Bool),
      KV.rangeQuery kv (.seq .list [some a, ub]) incl =
        .ok (Node.greaterThan a ub incl kv.root) := fun ub incl => rfl
  have hlt : ∀ incl : Bool,
      KV.rangeQuery kv (.seq .list [Option.none, some b]) incl =
        .ok (Node.lessThan b incl kv.root) := fun incl => rfl
  refine ⟨?_, ?_, ?_, ?_, ?_, ?_, fun p => hs.filter p⟩
  · rw [hgt (some b) true, Node.greaterThan_eq_filter a (some b) true hs]
    rfl
  · rw [hgt (some b) false, Node.greaterThan_eq_filter a (some b) false hs]
    rfl
  · rw [hlt true, Node.lessThan_eq_filter b true hs]
    rfl
  · rw [hlt false, Node.lessThan_eq_filter b false hs]
    rfl
  · rw [hgt Option.none true, Node.greaterThan_eq_filter a Option.none true hs]
    simp [gtPredB, ubPredB]
  · rw [hgt Option.none false, Node.greaterThan_eq_filter a Option.none false hs]
    simp [gtPredB, ubPredB]

theorem claim_C2_witness :
    entSorted wKV.root.flatten ∧
    KV.rangeQuery wKV (.seq .list [some (.int 1), some (.int 3)]) true =
      .ok (wKV.root.flatten.filter
        (fun e => decide (keyLE (.int 1) e.1) && decide (keyLE e.1 (.int 3)))) :=
  ⟨by decide,
    (claim_C2_range_query_exact wKV (by decide) (.int 1) (.int 3)).1⟩

/-- C3: `set` performs its checks in a fixed short-circuit order — a `None`
value fails with InvalidValue first (for every key, also a wrong-typed
one), a key failing the `isinstance` test fails with KeyTypeMismatch next
(for every store, so no duplicate search is involved), and only then is an
existing key rejected with DuplicateKey. -/
theorem claim_C3_set_check_order (kv : KV) (k : PyKey) (v : PyVal) :
    (v = PyVal.none → KV.set kv k v = .error .invalidValue) ∧
    (v ≠ PyVal.none → k.isInst kv.type = false →
      KV.set kv k v = .error .keyTypeMismatch) ∧
    (v ≠ PyVal.none → k.isInst kv.type = true →
      kv.root.search k ≠ PyVal.none → KV.set kv k v = .error .duplicateKey) := by
  refine ⟨?_, ?_, ?_⟩
  · intro h
    rw [KV.set, if_pos h]
  · intro h1 h2
    rw [KV.set, if_neg h1, if_pos h2]
  · intro h1 h2 h3
    rw [KV.set, if_neg h1, if_neg (by simp [h2]), if_pos h3]

theorem claim_C3_witness :
    KV.set wKV (.str "s") PyVal.none = .error .invalidValue ∧
    KV.set wKV (.str "s") (.str "x") = .error .keyTypeMismatch ∧
    KV.set wKV (.int 1) (.str "x") = .error .duplicateKey :=
  ⟨(claim_C3_set_check_order wKV (.str "s") PyVal.none).1 rfl,
   (claim_C3_set_check_order wKV (.str "s") (.str "x")).2.1 (by decide) (by decide),
   (claim_C3_set_check_order wKV (.int 1) (.str "x")).2.2 (by decide) (by decide)
     (by decide)⟩

/-- C4: behavior of the notebook's malformed-interval guard on list
arguments — because the guard combines the failed isinstance test and the
length test with `and`, a list argument can never trigger InvalidInterval:
every list argument either succeeds or dies in tuple unpacking, and in
particular a three-element list fails with the unpacking ValueError rather
than InvalidInterval. -/
theorem claim_C4_interval_guard (kv : KV) (incl : Bool) :
    (∀ xs : List (Option PyKey),
      (∃ r, KV.rangeQuery kv (.seq .list xs) incl = .ok r) ∨
        KV.rangeQuery kv (.seq .list xs) incl = .error .unpackError) ∧
    (∀ x y z : Option PyKey,
      KV.rangeQuery kv (.seq .list [x, y, z]) incl = .error .unpackError) := by
  constructor
  · intro xs
    match xs with
    | [] => exact Or.inr rfl
    | [x] => exact Or.inr rfl
    | [Option.none, u] => exact Or.inl ⟨_, rfl⟩
    | [some a, u] => exact Or.inl ⟨_, rfl⟩
    | x :: y :: z :: rest => exact Or.inr rfl
  · intro x y z
    rfl

/-- C5: the final `__init__` of the notebook accepts the `values` argument
but never reads it, so construction with initial entries produces exactly
the empty store of the same type, and a subsequent `get` on a key of the
provided mapping fails with KeyNotFound instead of returning its value. -/
theorem claim_C5_init_ignores_initial_entries :
    (∀ (ty : PyType) (vals : Option (List (PyKey × PyVal))),
      KV.init ty vals = KV.init ty Option.none) ∧
    KV.get (KV.init .int (some [(.int 1, .str "a")])) (.int 1) =
      .error .keyNotFound :=
  ⟨fun _ _ => rfl, rfl⟩

/-- C6: for every store and name, loading the file produced by a successful
dump under that name yields a store answering identical `get` results for
every key and identical `range_query` results for every interval and flag
as the original store. -/
theorem claim_C6_persist_load_roundtrip (kv : KV) (name : String) (fs : FS) :
    ∃ fs2, KV.dump kv name fs .ok = .ok (fs2, true) ∧
      ∃ kv2, KV.load name fs2 = .ok kv2 ∧
        (∀ k, KV.get kv2 k = KV.get kv k) ∧
        (∀ (interval : PyArg) (incl : Bool),
          KV.rangeQuery kv2 interval incl = KV.rangeQuery kv interval incl) := by
  refine ⟨fs.write (name ++ ".db") (KV.encode kv), rfl, kv, ?_,
    fun k => rfl, fun i incl => rfl⟩
  show KV.load name (fs.write (name ++ ".db") (KV.encode kv)) = .ok kv
  unfold KV.load FS.write
  simp [KV.decode_encode]

/-- C7: `dump(name)` writes the serialized store to `name` plus the `.db`
extension and returns `True` whenever the write succeeds; an I/O failure
propagates as the raised error; and every call either returns `True` or
raises — a non-true success flag is never returned. -/
theorem claim_C7_persist_success_flag (kv : KV) (name : String) (fs : FS) :
    KV.dump kv name fs .ok = .ok (fs.write (name ++ ".db") (KV.encode kv), true) ∧
    KV.dump kv name fs .fail = .error .ioError ∧
    (∀ io : IOOutcome,
      KV.dump kv name fs io =
          .ok (fs.write (name ++ ".db") (KV.encode kv), true) ∨
        KV.dump kv name fs io = .error .ioError) := by
  refine ⟨rfl, rfl, ?_⟩
  intro io
  cases io with
  | ok => exact Or.inl rfl
  | fail => exact Or.inr rfl

/-- C8: every failing `set` call — whatever its error — leaves the store
completely unchanged: same store value, same stored entries, same declared
type and degree. -/
theorem claim_C8_failed_set_frame (kv : KV) (k : PyKey) (v : PyVal)
    (e : PyErr) (kv2 : KV) (h : KV.setS kv k v = (.error e, kv2)) :
    kv2 = kv ∧ kv2.root.flatten = kv.root.flatten ∧ kv2.type = kv.type ∧
      kv2.t = kv.t := by
  rw [KV.setS] at h
  cases hset : KV.set kv k v with
  | error e2 =>
    rw [hset] at h
    have h2 : kv = kv2 := congrArg Prod.snd h
    exact ⟨h2.symm, by rw [← h2], by rw [← h2], by rw [← h2]⟩
  | ok kv3 =>
    rw [hset] at h
    exact absurd (congrArg Prod.fst h) (by simp)

theorem claim_C8_witness :
    KV.setS wKV (.int 9) PyVal.none = (.error .invalidValue, wKV) ∧
    (wKV = wKV ∧ wKV.root.flatten = wKV.root.flatten ∧ wKV.type = wKV.type ∧
      wKV.t = wKV.t) :=
  ⟨rfl, claim_C8_failed_set_frame wKV (.int 9) PyVal.none .invalidValue wKV rfl⟩

/-- C9: `load_from_dict` calls `set` entry by entry in the mapping's
iteration order; when a `set` fails, its error propagates and the store is
left exactly as after the successful prefix — prior inserts remain, and no
entry at or after the failing one is inserted. -/
theorem claim_C9_bulk_load_no_rollback (kv kv1 : KV)
    (pre : List (PyKey × PyVal)) (bad : PyKey × PyVal)
    (rest : List (PyKey × PyVal)) (e : PyErr)
    (hpre : KV.loadFromDict kv pre = (Option.none, kv1))
    (hbad : KV.set kv1 bad.1 bad.2 = .error e) :
    KV.loadFromDict kv (pre ++ bad :: rest) = (some e, kv1) := by
  obtain ⟨bk, bv⟩ := bad
  have hbad2 : KV.set kv1 bk bv = .error e := hbad
  induction pre generalizing kv with
  | nil =>
    have hk : kv = kv1 := congrArg Prod.snd hpre
    subst hk
    show KV.loadFromDict kv ([] ++ (bk, bv) :: rest) = (some e, kv)
    rw [List.nil_append]
    show (match KV.set kv bk bv with
      | .error e2 => (some e2, kv)
      | .ok kv2 => KV.loadFromDict kv2 rest) = (some e, kv)
    rw [hbad2]
  | cons p pre2 ih =>
    obtain ⟨pk, pv⟩ := p
    cases hset : KV.set kv pk pv with
    | error e2 =>
      have hpre2 : KV.loadFromDict kv ((pk, pv) :: pre2) = (some e2, kv) := by
        show (match KV.set kv pk pv with
          | .error e3 => (some e3, kv)
          | .ok kv2 => KV.loadFromDict kv2 pre2) = (some e2, kv)
        rw [hset]
      rw [hpre2] at hpre
      exact absurd (congrArg Prod.fst hpre) (by simp)
    | ok kv2 =>
      have hstep : KV.loadFromDict kv ((pk, pv) :: pre2) =
          KV.loadFromDict kv2 pre2 := by
        show (match KV.set kv pk pv with
          | .error e3 => (some e3, kv)
          | .ok kv3 => KV.loadFromDict kv3 pre2) = KV.loadFromDict kv2 pre2
        rw [hset]
      rw [hstep] at hpre
      have hgoal := ih kv2 hpre
      show KV.loadFromDict kv (((pk, pv) :: pre2) ++ (bk, bv) :: rest) =
        (some e, kv1)
      rw [List.cons_append]
      have hstep2 : KV.loadFromDict kv ((pk, pv) :: (pre2 ++ (bk, bv) :: rest)) =
          KV.loadFromDict kv2 (pre2 ++ (bk, bv) :: rest) := by
        show (match KV.set kv pk pv with
          | .error e3 => (some e3, kv)
          | .ok kv3 => KV.loadFromDict kv3 (pre2 ++ (bk, bv) :: rest)) =
          KV.loadFromDict kv2 (pre2 ++ (bk, bv) :: rest)
        rw [hset]
      rw [hstep2]
      exact hgoal

theorem claim_C9_witness :
    KV.loadFromDict wKV [] = (Option.none, wKV) ∧
    KV.set wKV (.str "s") (.str "x") = .error .keyTypeMismatch ∧
    KV.loadFromDict wKV ([] ++ ((.str "s", .str "x") : PyKey × PyVal) ::
      [((.int 9 : PyKey), PyVal.str "y")]) = (some .keyTypeMismatch, wKV) :=
  ⟨rfl, rfl,
    claim_C9_bulk_load_no_rollback wKV wKV [] (.str "s", .str "x")
      [(.int 9, .str "y")] .keyTypeMismatch rfl rfl⟩

/-- C10: in every store populated only through the public interface, no
stored value is the `None` sentinel, so the engine search returning `None`
means exactly that the key is absent — which is the condition `get` relies
on to raise KeyNotFound. -/
theorem claim_C10_no_null_values (kv : KV) (h : KV.Reach kv) :
    (∀ x ∈ kv.root.flatten, x.2 ≠ PyVal.none) ∧
    (∀ k : PyKey, kv.root.search k = PyVal.none ↔
      k ∉ kv.root.flatten.map Prod.fst) ∧
    (∀ k : PyKey, KV.get kv k = .error .keyNotFound ↔
      k ∉ kv.root.flatten.map Prod.fst) := by
  have hinv := KV.Reach_inv h
  have habs : ∀ k : PyKey, findE kv.root.flatten k = Option.none ↔
      k ∉ kv.root.flatten.map Prod.fst := by
    intro k
    rw [findE_eq_none_iff, not_mem_keys_iff]
  refine ⟨hinv.2.1, ?_, ?_⟩
  · intro k
    rw [KV.search_none_iff hinv k]
    exact habs k
  · intro k
    rw [KV.get_spec hinv k]
    cases hfe : findE kv.root.flatten k with
    | none =>
      simp [(habs k).mp hfe]
    | some x =>
      have hk : k ∈ kv.root.flatten.map Prod.fst :=
        List.mem_map.mpr ⟨x, findE_some_mem hfe, (findE_some_key hfe).symm⟩
      simp [hk]

theorem claim_C10_witness :
    KV.Reach (KV.init .int Option.none) ∧
    ((KV.init .int Option.none).root.search (.int 1) = PyVal.none ↔
      (PyKey.int 1) ∉ (KV.init .int Option.none).root.flatten.map Prod.fst) :=
  ⟨KV.Reach.init .int Option.none,
    (claim_C10_no_null_values _ (KV.Reach.init .int Option.none)).2.1 (.int 1)⟩

end KVStore
